import Mathlib

/-!
Verification of the diffsptk spectral/phase analysis core and the
all-pole/all-zero coefficient conversion (`norm0`).

Coefficient arrays are modelled as `List ℝ` over the trailing tap axis;
an absent (`None`) array is `Option.none`.  The discrete Fourier transform
is the literal sum definition over `Finset.range L` with zero padding.
The spectral operators (`Spectrum`, `Phase`, `GroupDelay`) live outside
the provided sources (only their callers in `functional.py` and tests are
present), so they are modelled from the specification; `norm0` is
translated directly from `diffsptk/core/norm0.py`.
-/

noncomputable section

namespace DiffSPTK

open Complex

/-- Modelled from the spec: the `L`-point discrete Fourier transform of a
real coefficient list zero-padded to length `L`, evaluated at bin `k`.
This is the DFT primitive that `FrequencyResponse` (not present under the
sources; only its callers are) consumes. -/
def dftBin (x : List ℝ) (L k : ℕ) : ℂ :=
  ∑ n ∈ Finset.range L,
    ((x.getD n 0 : ℝ) : ℂ) * Complex.exp (-(2 * (Real.pi : ℂ) * k * n / L) * Complex.I)

/-- Taps of an optional coefficient array: an absent polynomial stands for
the identity polynomial `[1]`. -/
def taps (b : Option (List ℝ)) : List ℝ :=
  b.getD [1]

/-- Modelled from the spec: `response(b, a, L)` at bin `k`, the rational
frequency response `H[k] = B(k) / A(k)` with absent polynomials treated
as the identity `[1]` (the `FrequencyResponse` component is missing from
the sources). -/
def response (b a : Option (List ℝ)) (L k : ℕ) : ℂ :=
  dftBin (taps b) L k / dftBin (taps a) L k

/-- The list of one-sided frequency bins `0, 1, ..., ⌊L/2⌋`. -/
def bins (L : ℕ) : List ℕ :=
  List.range (L / 2 + 1)

/-- Output formats of `Spectrum`. -/
inductive OutFormat where
  | power
  | magnitude
  | logMagnitude
  | db
  deriving DecidableEq

/-- Modelled from the spec: conversion of a power value into the chosen
output scale of `Spectrum`. -/
def convert (fmt : OutFormat) (x : ℝ) : ℝ :=
  match fmt with
  | OutFormat.power => x
  | OutFormat.magnitude => Real.sqrt x
  | OutFormat.logMagnitude => Real.log (Real.sqrt x)
  | OutFormat.db => 10 * Real.logb 10 x

/-- Modelled from the spec: the power array entry
`P[k] = |H[k]|^2 + eps` of `Spectrum`. -/
def powerAt (b a : Option (List ℝ)) (L : ℕ) (eps : ℝ) (k : ℕ) : ℝ :=
  Complex.abs (response b a L k) ^ 2 + eps

/-- Maximum of a list of reals (`0` on the empty list, which never occurs
for spectra since `⌊L/2⌋ + 1 ≥ 1`). -/
def listMax : List ℝ → ℝ
  | [] => 0
  | x :: xs => xs.foldl max x

/-- Modelled from the spec: the clamping floor anchored at the per-array
maximum `m`, with `relative_floor` `r` (given in decibels) expressed in
the same unit as the chosen output scale. -/
def floorAnchor (fmt : OutFormat) (m r : ℝ) : ℝ :=
  match fmt with
  | OutFormat.power => m * Real.rpow 10 (r / 10)
  | OutFormat.magnitude => m * Real.rpow 10 (r / 20)
  | OutFormat.logMagnitude => m + r * Real.log 10 / 20
  | OutFormat.db => m + r

/-- Modelled from the spec: `spec` (the `Spectrum` operator, missing from
the sources; `functional.spec` only delegates to it).  Computes
`H = response(b, a, L)`, the power `P[k] = |H[k]|^2 + eps`, converts to
the chosen scale, and, when `relative_floor` is given, clamps each value
to be no less than the per-array maximum plus `relative_floor` expressed
in the output scale. -/
def spec (b a : Option (List ℝ)) (L : ℕ) (eps : ℝ) (relativeFloor : Option ℝ)
    (fmt : OutFormat) : List ℝ :=
  let vals := (bins L).map fun k => convert fmt (powerAt b a L eps k)
  match relativeFloor with
  | none => vals
  | some r => vals.map fun v => max v (floorAnchor fmt (listMax vals) r)

/-- `atan2`, the standard two-argument arctangent: `atan2 y x` is the
angle of the point `(x, y)`, in `(-π, π]`. -/
def atan2 (y x : ℝ) : ℝ :=
  if 0 < x then Real.arctan (y / x)
  else if x = 0 then
    if 0 < y then Real.pi / 2 else if y < 0 then -(Real.pi / 2) else 0
  else
    if 0 ≤ y then Real.arctan (y / x) + Real.pi
    else Real.arctan (y / x) - Real.pi

/-- Modelled from the spec: the wrapped phase of `Phase` at bin `k`,
`Θ[k] = atan2(Im H[k], Re H[k])` normalized by `π`. -/
def phaseAt (b a : Option (List ℝ)) (L k : ℕ) : ℝ :=
  atan2 (response b a L k).im (response b a L k).re / Real.pi

/-- Modelled from the spec: one step of sequential phase unwrapping in
normalized units (period `2.0`): the current sample `c` is shifted by the
integer multiple of `2` that brings it within `1.0` of the previous
unwrapped sample `p`. -/
def unwrapNext (p c : ℝ) : ℝ :=
  c - 2 * (round ((c - p) / 2) : ℤ)

/-- Modelled from the spec: sequential unwrapping of the tail of a phase
sequence, given the previous unwrapped sample `p`. -/
def unwrapFrom (p : ℝ) : List ℝ → List ℝ
  | [] => []
  | c :: rest => unwrapNext p c :: unwrapFrom (unwrapNext p c) rest

/-- Modelled from the spec: sequential phase unwrapping along the
frequency axis; the first sample is left as computed. -/
def unwrapList : List ℝ → List ℝ
  | [] => []
  | c :: rest => c :: unwrapFrom c rest

/-- Modelled from the spec: `phase` (the `Phase` operator, missing from
the sources; `functional.phase` only delegates to it).  Returns the
wrapped phase in units of `π`, optionally unwrapped along the frequency
axis. -/
def phase (b a : Option (List ℝ)) (L : ℕ) (unwrap : Bool) : List ℝ :=
  let vals := (bins L).map fun k => phaseAt b a L k
  if unwrap then unwrapList vals else vals

/-- Index weighting of a coefficient list: `x'[n] = n * x[n]` with
zero-based tap index. -/
def weighted (x : List ℝ) : List ℝ :=
  List.zipWith (fun n c => (n : ℝ) * c) (List.range x.length) x

/-- Modelled from the spec: the (modified) group delay at bin `k`,
`D[k] = α * Re(B' * conj B) / |B|^(2γ) - α * Re(A' * conj A) / |A|^(2γ)`
where `B`, `A` are the DFTs of the coefficients and `B'`, `A'` the DFTs
of their index-weighted counterparts; an absent polynomial is the
identity `[1]`, whose weighted counterpart is the zero polynomial. -/
def grpdelayAt (b a : Option (List ℝ)) (L : ℕ) (alpha gamma : ℝ) (k : ℕ) : ℝ :=
  let B := dftBin (taps b) L k
  let Bw := dftBin (weighted (taps b)) L k
  let A := dftBin (taps a) L k
  let Aw := dftBin (weighted (taps a)) L k
  alpha * (Bw * (starRingEnd ℂ) B).re / Real.rpow (Complex.abs B) (2 * gamma) -
    alpha * (Aw * (starRingEnd ℂ) A).re / Real.rpow (Complex.abs A) (2 * gamma)

/-- Modelled from the spec: `grpdelay` (the `GroupDelay` operator,
missing from the sources; `functional.grpdelay` only delegates to it). -/
def grpdelay (b a : Option (List ℝ)) (L : ℕ) (alpha gamma : ℝ) : List ℝ :=
  (bins L).map fun k => grpdelayAt b a L alpha gamma k

/-- Batched application over a list of `(b, a)` coefficient pairs; every
batch element is processed independently. -/
def specBatch (pairs : List (Option (List ℝ) × Option (List ℝ))) (L : ℕ) (eps : ℝ)
    (relativeFloor : Option ℝ) (fmt : OutFormat) : List (List ℝ) :=
  pairs.map fun p => spec p.1 p.2 L eps relativeFloor fmt

/-- Batched application of `phase` over a list of `(b, a)` pairs. -/
def phaseBatch (pairs : List (Option (List ℝ) × Option (List ℝ))) (L : ℕ)
    (unwrap : Bool) : List (List ℝ) :=
  pairs.map fun p => phase p.1 p.2 L unwrap

/-- Batched application of `grpdelay` over a list of `(b, a)` pairs. -/
def grpdelayBatch (pairs : List (Option (List ℝ) × Option (List ℝ))) (L : ℕ)
    (alpha gamma : ℝ) : List (List ℝ) :=
  pairs.map fun p => grpdelay p.1 p.2 L alpha gamma

/-- The configuration errors of the spectral core. -/
inductive ConfigurationError where
  | bothAbsent
  | invalidOutFormat
  | nonPositiveAlpha
  | nonPositiveGamma
  | insufficientLength
  deriving DecidableEq

/-- Modelled from the spec: parsing of the `out_format` string of
`spec`; any string outside the four admitted values is a configuration
error. -/
def parseOutFormat (s : String) : Option OutFormat :=
  if s = "power" then some OutFormat.power
  else if s = "magnitude" then some OutFormat.magnitude
  else if s = "log-magnitude" then some OutFormat.logMagnitude
  else if s = "db" then some OutFormat.db
  else none

/-- The tap count that `L` must accommodate: the length of whichever
polynomials are present (an absent polynomial needs no padding room). -/
def requiredLength (b a : Option (List ℝ)) : ℕ :=
  max ((b.map List.length).getD 0) ((a.map List.length).getD 0)

/-- Modelled from the spec: the validation shared by all three
operators, raising `ConfigurationError` synchronously at call time when
both `b` and `a` are absent or `L` is smaller than a tap count. -/
def validateCommon (b a : Option (List ℝ)) (L : ℕ) : Option ConfigurationError :=
  match b, a with
  | none, none => some ConfigurationError.bothAbsent
  | _, _ =>
    if L < requiredLength b a then some ConfigurationError.insufficientLength
    else none

/-- Modelled from the spec: `spec` with call-time validation; it fails
fast with a `ConfigurationError` before any output is produced, and
otherwise returns the spectrum. -/
def specChecked (b a : Option (List ℝ)) (L : ℕ) (eps : ℝ) (relativeFloor : Option ℝ)
    (fmtStr : String) : Except ConfigurationError (List ℝ) :=
  match validateCommon b a L with
  | some e => Except.error e
  | none =>
    match parseOutFormat fmtStr with
    | none => Except.error ConfigurationError.invalidOutFormat
    | some fmt => Except.ok (spec b a L eps relativeFloor fmt)

/-- Modelled from the spec: `phase` with call-time validation. -/
def phaseChecked (b a : Option (List ℝ)) (L : ℕ) (unwrap : Bool) :
    Except ConfigurationError (List ℝ) :=
  match validateCommon b a L with
  | some e => Except.error e
  | none => Except.ok (phase b a L unwrap)

/-- Modelled from the spec: `grpdelay` with call-time validation,
additionally rejecting non-positive `alpha` or `gamma`. -/
def grpdelayChecked (b a : Option (List ℝ)) (L : ℕ) (alpha gamma : ℝ) :
    Except ConfigurationError (List ℝ) :=
  match validateCommon b a L with
  | some e => Except.error e
  | none =>
    if alpha ≤ 0 then Except.error ConfigurationError.nonPositiveAlpha
    else if gamma ≤ 0 then Except.error ConfigurationError.nonPositiveGamma
    else Except.ok (grpdelay b a L alpha gamma)

/-- Translated from `diffsptk/core/norm0.py`
(`AllPoleToAllZeroDigitalFilterCoefficients.forward` along the trailing
axis): split the leading tap `K` from the rest `a1`, return
`[1/K] ++ a1 * (1/K)`.  Stated over an arbitrary field, standing for
exact real arithmetic. -/
def norm0Forward {F : Type} [Field F] (a : List F) : List F :=
  match a with
  | [] => []
  | k :: a1 => k⁻¹ :: a1.map fun c => c * k⁻¹

/-- Batched `norm0` along leading axes: each batch element is converted
independently. -/
def norm0Batch {F : Type} [Field F] (batch : List (List F)) : List (List F) :=
  batch.map norm0Forward

/-! ### Helper lemmas -/

lemma getD_map_range {α : Type} (f : ℕ → α) (d : α) (n k : ℕ) (hk : k < n) :
    ((List.range n).map f).getD k d = f k := by
  rw [List.getD_eq_getElem?_getD]
  simp [List.getElem?_map, List.getElem?_range, hk]

/-- The weighted counterpart of the identity polynomial `[1]` is the
zero polynomial. -/
lemma weighted_one : weighted [(1 : ℝ)] = [0] := by
  have h1 : List.range 1 = [0] := by simp [List.range_succ]
  simp [weighted, h1]

/-- The DFT of the zero polynomial vanishes at every bin. -/
lemma dftBin_zero_poly (L k : ℕ) : dftBin [0] L k = 0 := by
  unfold dftBin
  refine Finset.sum_eq_zero fun n _ => ?_
  have h : ([(0 : ℝ)]).getD n 0 = 0 := by cases n <;> simp
  rw [h]
  simp

/-- The DFT of the identity polynomial `[1]` is constantly `1`. -/
lemma dftBin_one_poly (L k : ℕ) (hL : 1 ≤ L) : dftBin [1] L k = 1 := by
  unfold dftBin
  rw [Finset.sum_eq_single 0]
  · simp
  · intro n _ hn
    have h : ([(1 : ℝ)]).getD n 0 = 0 := by
      cases n with
      | zero => exact absurd rfl hn
      | succ m => simp
    rw [h]
    simp
  · intro h
    exact absurd (Finset.mem_range.mpr hL) h

lemma length_unwrapFrom (p : ℝ) (l : List ℝ) : (unwrapFrom p l).length = l.length := by
  induction l generalizing p with
  | nil => rfl
  | cons c rest ih => simp [unwrapFrom, ih]

lemma length_unwrapList (l : List ℝ) : (unwrapList l).length = l.length := by
  cases l with
  | nil => rfl
  | cons c rest => simp [unwrapList, length_unwrapFrom]

/-- The key estimate for unwrapping: the adjusted sample is within `1`
of the previous unwrapped sample. -/
lemma abs_unwrapNext_sub (p c : ℝ) : |unwrapNext p c - p| ≤ 1 := by
  have h := abs_sub_round ((c - p) / 2)
  have : unwrapNext p c - p = 2 * ((c - p) / 2 - (round ((c - p) / 2) : ℤ)) := by
    unfold unwrapNext; ring
  rw [this, abs_mul]
  have h2 : |(2 : ℝ)| = 2 := by norm_num
  rw [h2]
  linarith

lemma init_le_foldl_max (xs : List ℝ) (x : ℝ) : x ≤ xs.foldl max x := by
  induction xs generalizing x with
  | nil => exact le_refl x
  | cons y ys ih => exact le_trans (le_max_left x y) (ih (max x y))

lemma mem_le_foldl_max (xs : List ℝ) (v : ℝ) (hv : v ∈ xs) (x : ℝ) :
    v ≤ xs.foldl max x := by
  induction xs generalizing x with
  | nil => cases hv
  | cons y ys ih =>
    rcases List.mem_cons.mp hv with h | h
    · subst h
      exact le_trans (le_max_right x v) (init_le_foldl_max ys (max x v))
    · exact ih h (max x y)

lemma le_listMax {l : List ℝ} {v : ℝ} (hv : v ∈ l) : v ≤ listMax l := by
  cases l with
  | nil => cases hv
  | cons x xs =>
    rcases List.mem_cons.mp hv with h | h
    · subst h; exact init_le_foldl_max xs v
    · exact mem_le_foldl_max xs v h x

/-! ### Claims about norm0 (translated from the source) -/

/-- Claim C9: for an input `a` with at least one tap and a nonzero
leading tap, `AllPoleToAllZeroDigitalFilterCoefficients.forward` returns
an array of the same length with `b[0] = 1 / a[0]` and
`b[i] = a[i] / a[0]` for `1 ≤ i < K`, each batch element computed
independently. -/
theorem norm0_forward_values {F : Type} [Field F] (a : List F)
    (hK : 1 ≤ a.length) (h0 : a.getD 0 0 ≠ 0) :
    (norm0Forward a).length = a.length ∧
    (norm0Forward a).getD 0 0 = 1 / a.getD 0 0 ∧
    (∀ i, 1 ≤ i → i < a.length → (norm0Forward a).getD i 0 = a.getD i 0 / a.getD 0 0) ∧
    (∀ batch : List (List F), norm0Batch batch = batch.map norm0Forward) := by
  cases a with
  | nil => simp at hK
  | cons k a1 =>
    refine ⟨by simp [norm0Forward], by simp [norm0Forward, one_div], ?_, fun _ => rfl⟩
    intro i h1 hi
    obtain ⟨j, rfl⟩ : ∃ j, i = j + 1 := ⟨i - 1, (Nat.succ_pred_eq_of_pos h1).symm⟩
    have hj : j < a1.length := by simpa using hi
    simp only [norm0Forward, List.getD_cons_succ, List.getD_cons_zero]
    rw [List.getD_eq_getElem?_getD, List.getD_eq_getElem?_getD, List.getElem?_map]
    rw [List.getElem?_eq_getElem hj]
    simp [div_eq_mul_inv]

/-- Claim C10: `AllPoleToAllZeroDigitalFilterCoefficients.forward` is an
involution under exact arithmetic whenever the leading tap is nonzero. -/
theorem norm0_involution {F : Type} [Field F] (a : List F)
    (h0 : a.getD 0 0 ≠ 0) :
    norm0Forward (norm0Forward a) = a := by
  cases a with
  | nil => rfl
  | cons k a1 =>
    have hk : k ≠ 0 := by simpa using h0
    simp only [norm0Forward, inv_inv, List.map_map]
    congr 1
    have : ∀ c ∈ a1, c * k⁻¹ * k = c := by
      intro c _
      field_simp
    calc a1.map ((fun c => c * k) ∘ fun c => c * k⁻¹)
        = a1.map id := List.map_congr_left (by simpa using this)
      _ = a1 := List.map_id a1

/-- Witness for C9 at the concrete rational input `[2, 4, 6]`. -/
theorem norm0_forward_values_witness :
    (1 ≤ ([2, 4, 6] : List ℚ).length ∧ ([2, 4, 6] : List ℚ).getD 0 0 ≠ 0) ∧
    ((norm0Forward ([2, 4, 6] : List ℚ)).length = ([2, 4, 6] : List ℚ).length ∧
      (norm0Forward ([2, 4, 6] : List ℚ)).getD 0 0 = 1 / ([2, 4, 6] : List ℚ).getD 0 0 ∧
      (∀ i, 1 ≤ i → i < ([2, 4, 6] : List ℚ).length →
        (norm0Forward ([2, 4, 6] : List ℚ)).getD i 0 =
          ([2, 4, 6] : List ℚ).getD i 0 / ([2, 4, 6] : List ℚ).getD 0 0) ∧
      (∀ batch : List (List ℚ), norm0Batch batch = batch.map norm0Forward)) :=
  ⟨⟨by decide, by decide⟩, norm0_forward_values [2, 4, 6] (by decide) (by decide)⟩

/-- Witness for C10 at the concrete rational input `[2, 4, 6]`. -/
theorem norm0_involution_witness :
    ([2, 4, 6] : List ℚ).getD 0 0 ≠ 0 ∧
    norm0Forward (norm0Forward ([2, 4, 6] : List ℚ)) = [2, 4, 6] :=
  ⟨by decide, norm0_involution [2, 4, 6] (by decide)⟩

/-! ### Spectrum output formats (C1) -/

/-- Claim C1: for any coefficient input with at least one of `b`, `a`
present, `L ≥ 2` and `eps ≥ 0`, `spec` computes `H = response(b, a, L)`
and the power array `P[k] = |H[k]|^2 + eps`, and returns exactly `P` for
format `power`, `sqrt(P)` for `magnitude`, `log(sqrt(P))` for
`log-magnitude`, and `10 * log10(P)` for `db`. -/
theorem spec_out_formats (b a : Option (List ℝ)) (L : ℕ) (eps : ℝ)
    (hba : b ≠ none ∨ a ≠ none) (hL : 2 ≤ L) (heps : 0 ≤ eps) :
    spec b a L eps none OutFormat.power =
      (bins L).map (fun k => Complex.abs (response b a L k) ^ 2 + eps) ∧
    spec b a L eps none OutFormat.magnitude =
      ((bins L).map (fun k => Complex.abs (response b a L k) ^ 2 + eps)).map
        Real.sqrt ∧
    spec b a L eps none OutFormat.logMagnitude =
      ((bins L).map (fun k => Complex.abs (response b a L k) ^ 2 + eps)).map
        (fun p => Real.log (Real.sqrt p)) ∧
    spec b a L eps none OutFormat.db =
      ((bins L).map (fun k => Complex.abs (response b a L k) ^ 2 + eps)).map
        (fun p => 10 * Real.logb 10 p) := by
  refine ⟨rfl, ?_, ?_, ?_⟩ <;>
    simp [spec, convert, powerAt, List.map_map, Function.comp]

/-- Witness for C1 at `b = [1]`, `a` absent, `L = 2`, `eps = 0`. -/
theorem spec_out_formats_witness :
    ((some [1] : Option (List ℝ)) ≠ none ∨ (none : Option (List ℝ)) ≠ none) ∧
    (spec (some [1]) none 2 0 none OutFormat.power =
      (bins 2).map (fun k => Complex.abs (response (some [1]) none 2 k) ^ 2 + 0) ∧
    spec (some [1]) none 2 0 none OutFormat.magnitude =
      ((bins 2).map (fun k => Complex.abs (response (some [1]) none 2 k) ^ 2 + 0)).map
        Real.sqrt ∧
    spec (some [1]) none 2 0 none OutFormat.logMagnitude =
      ((bins 2).map (fun k => Complex.abs (response (some [1]) none 2 k) ^ 2 + 0)).map
        (fun p => Real.log (Real.sqrt p)) ∧
    spec (some [1]) none 2 0 none OutFormat.db =
      ((bins 2).map (fun k => Complex.abs (response (some [1]) none 2 k) ^ 2 + 0)).map
        (fun p => 10 * Real.logb 10 p)) :=
  ⟨Or.inl (by simp),
    spec_out_formats (some [1]) none 2 0 (Or.inl (by simp)) (by norm_num) le_rfl⟩

/-! ### Shape invariant (C5) -/

/-- Claim C5: for every valid input, the outputs of `spec`, `phase` and
`grpdelay` have trailing dimension exactly `⌊L/2⌋ + 1`, independent of
the tap counts of `b` and `a`, and batched application preserves the
leading batch axis. -/
theorem output_shapes (b a : Option (List ℝ)) (L : ℕ) (eps : ℝ)
    (rf : Option ℝ) (fmt : OutFormat) (unwrap : Bool) (alpha gamma : ℝ)
    (pairs : List (Option (List ℝ) × Option (List ℝ)))
    (hba : b ≠ none ∨ a ≠ none) (hL : 2 ≤ L)
    (htaps : requiredLength b a ≤ L) :
    (spec b a L eps rf fmt).length = L / 2 + 1 ∧
    (phase b a L unwrap).length = L / 2 + 1 ∧
    (grpdelay b a L alpha gamma).length = L / 2 + 1 ∧
    (specBatch pairs L eps rf fmt).length = pairs.length ∧
    (phaseBatch pairs L unwrap).length = pairs.length ∧
    (grpdelayBatch pairs L alpha gamma).length = pairs.length ∧
    (∀ out ∈ specBatch pairs L eps rf fmt, out.length = L / 2 + 1) ∧
    (∀ out ∈ phaseBatch pairs L unwrap, out.length = L / 2 + 1) ∧
    (∀ out ∈ grpdelayBatch pairs L alpha gamma, out.length = L / 2 + 1) := by
  have hspec : ∀ (b' a' : Option (List ℝ)),
      (spec b' a' L eps rf fmt).length = L / 2 + 1 := by
    intro b' a'
    cases rf <;> simp [spec, bins]
  have hphase : ∀ (b' a' : Option (List ℝ)),
      (phase b' a' L unwrap).length = L / 2 + 1 := by
    intro b' a'
    cases unwrap <;> simp [phase, bins, length_unwrapList]
  have hgd : ∀ (b' a' : Option (List ℝ)),
      (grpdelay b' a' L alpha gamma).length = L / 2 + 1 := by
    intro b' a'
    simp [grpdelay, bins]
  refine ⟨hspec b a, hphase b a, hgd b a, ?_, ?_, ?_, ?_, ?_, ?_⟩
  · simp [specBatch]
  · simp [phaseBatch]
  · simp [grpdelayBatch]
  · intro out hout
    obtain ⟨p, _, rfl⟩ := List.mem_map.mp hout
    exact hspec p.1 p.2
  · intro out hout
    obtain ⟨p, _, rfl⟩ := List.mem_map.mp hout
    exact hphase p.1 p.2
  · intro out hout
    obtain ⟨p, _, rfl⟩ := List.mem_map.mp hout
    exact hgd p.1 p.2

/-- Witness for C5 at `b = [1, 2]`, `a` absent, `L = 4`, with a
two-element batch. -/
theorem output_shapes_witness :
    (((some [1, 2] : Option (List ℝ)) ≠ none ∨ (none : Option (List ℝ)) ≠ none) ∧
      2 ≤ 4 ∧ requiredLength (some [1, 2]) none ≤ 4) ∧
    (spec (some [1, 2]) none 4 0 none OutFormat.power).length = 4 / 2 + 1 ∧
    (phase (some [1, 2]) none 4 true).length = 4 / 2 + 1 ∧
    (grpdelay (some [1, 2]) none 4 1 1).length = 4 / 2 + 1 := by
  have h := output_shapes (some [1, 2]) none 4 0 none OutFormat.power true 1 1
    [(some [1, 2], none), (none, some [1])]
    (Or.inl (by simp)) (by norm_num) (by simp [requiredLength])
  exact ⟨⟨Or.inl (by simp), by norm_num, by simp [requiredLength]⟩,
    h.1, h.2.1, h.2.2.1⟩

/-! ### Group delay formula (C2) -/

/-- Claim C2: `grpdelay` builds the index-weighted arrays and returns
`D[k] = α·Re(B'·conj B)/|B|^(2γ) − α·Re(A'·conj A)/|A|^(2γ)` when both
`b` and `a` are present, with only the corresponding signed term when
one is absent, and `α = γ = 1` gives the conventional group delay. -/
theorem grpdelay_formula (b a : List ℝ) (L : ℕ) (alpha gamma : ℝ) (k : ℕ)
    (halpha : 0 < alpha) (hgamma : 0 < gamma) (hL : 1 ≤ L) (hk : k < L / 2 + 1) :
    (grpdelay (some b) (some a) L alpha gamma).getD k 0 =
      alpha * (dftBin (weighted b) L k * (starRingEnd ℂ) (dftBin b L k)).re /
          Real.rpow (Complex.abs (dftBin b L k)) (2 * gamma) -
        alpha * (dftBin (weighted a) L k * (starRingEnd ℂ) (dftBin a L k)).re /
          Real.rpow (Complex.abs (dftBin a L k)) (2 * gamma) ∧
    (grpdelay (some b) none L alpha gamma).getD k 0 =
      alpha * (dftBin (weighted b) L k * (starRingEnd ℂ) (dftBin b L k)).re /
        Real.rpow (Complex.abs (dftBin b L k)) (2 * gamma) ∧
    (grpdelay none (some a) L alpha gamma).getD k 0 =
      -(alpha * (dftBin (weighted a) L k * (starRingEnd ℂ) (dftBin a L k)).re /
        Real.rpow (Complex.abs (dftBin a L k)) (2 * gamma)) ∧
    (grpdelay (some b) (some a) L 1 1).getD k 0 =
      (dftBin (weighted b) L k * (starRingEnd ℂ) (dftBin b L k)).re /
          Complex.abs (dftBin b L k) ^ 2 -
        (dftBin (weighted a) L k * (starRingEnd ℂ) (dftBin a L k)).re /
          Complex.abs (dftBin a L k) ^ 2 := by
  have hget : ∀ (b' a' : Option (List ℝ)) (al ga : ℝ),
      (grpdelay b' a' L al ga).getD k 0 = grpdelayAt b' a' L al ga k := by
    intro b' a' al ga
    exact getD_map_range (fun k => grpdelayAt b' a' L al ga k) 0 (L / 2 + 1) k hk
  have hrpow2 : ∀ x : ℝ, Real.rpow x (2 * 1) = x ^ 2 := by
    intro x
    show x ^ ((2 : ℝ) * 1) = x ^ 2
    rw [mul_one, show (2 : ℝ) = ((2 : ℕ) : ℝ) by norm_num, Real.rpow_natCast]
  refine ⟨?_, ?_, ?_, ?_⟩
  · rw [hget]
    simp [grpdelayAt, taps]
  · rw [hget]
    simp [grpdelayAt, taps, weighted_one, dftBin_zero_poly]
  · rw [hget]
    simp [grpdelayAt, taps, weighted_one, dftBin_zero_poly]
  · rw [hget]
    simp only [grpdelayAt, taps, Option.getD_some, hrpow2, one_mul]

/-- Witness for C2 at `b = [1, 2]`, `a = [1]`, `L = 4`, `α = γ = 1`,
bin `k = 0`. -/
theorem grpdelay_formula_witness :
    ((0 : ℝ) < 1 ∧ 1 ≤ 4 ∧ 0 < 4 / 2 + 1) ∧
    (grpdelay (some [1, 2]) (some [1]) 4 1 1).getD 0 0 =
      1 * (dftBin (weighted [1, 2]) 4 0 * (starRingEnd ℂ) (dftBin [1, 2] 4 0)).re /
          Real.rpow (Complex.abs (dftBin [1, 2] 4 0)) (2 * 1) -
        1 * (dftBin (weighted [1]) 4 0 * (starRingEnd ℂ) (dftBin [1] 4 0)).re /
          Real.rpow (Complex.abs (dftBin [1] 4 0)) (2 * 1) :=
  ⟨⟨by norm_num, by norm_num, by norm_num⟩,
    (grpdelay_formula [1, 2] [1] 4 1 1 0 (by norm_num) (by norm_num) (by norm_num)
      (by norm_num)).1⟩

/-! ### Phase range (C3) -/

/-- The two-argument arctangent always lands in `(-π, π]`. -/
lemma atan2_mem_Ioc (y x : ℝ) : atan2 y x ∈ Set.Ioc (-Real.pi) Real.pi := by
  have hpi := Real.pi_pos
  have h1 : ∀ z : ℝ, -(Real.pi / 2) < Real.arctan z := Real.neg_pi_div_two_lt_arctan
  have h2 : ∀ z : ℝ, Real.arctan z < Real.pi / 2 := Real.arctan_lt_pi_div_two
  unfold atan2
  split_ifs with hx hx0 hy hy'
  · exact ⟨by linarith [h1 (y / x)], by linarith [h2 (y / x)]⟩
  · exact ⟨by linarith, by linarith⟩
  · exact ⟨by linarith, by linarith⟩
  · exact ⟨by linarith, by linarith⟩
  · have hxneg : x < 0 := lt_of_le_of_ne (le_of_not_lt hx) hx0
    rename_i hy0
    have hq : y / x ≤ 0 := div_nonpos_iff.mpr (Or.inl ⟨hy0, le_of_lt hxneg⟩)
    have ha : Real.arctan (y / x) ≤ 0 := by
      have := Real.arctan_strictMono.monotone hq
      rwa [Real.arctan_zero] at this
    exact ⟨by linarith [h1 (y / x)], by linarith⟩
  · have hxneg : x < 0 := lt_of_le_of_ne (le_of_not_lt hx) hx0
    rename_i hy0
    have hyneg : y < 0 := lt_of_not_le hy0
    have hq : 0 < y / x := div_pos_of_neg_of_neg hyneg hxneg
    have ha : 0 < Real.arctan (y / x) := by
      have := Real.arctan_strictMono hq
      rwa [Real.arctan_zero] at this
    exact ⟨by linarith, by linarith [h2 (y / x)]⟩

/-- Claim C3: with `unwrap = false`, `phase` returns
`Θ[k] = atan2(Im H[k], Re H[k]) / π`, and every output value lies in the
half-open interval `(-1, 1]`. -/
theorem phase_wrapped_range (b a : Option (List ℝ)) (L k : ℕ)
    (hba : b ≠ none ∨ a ≠ none) (hL : 2 ≤ L) (hk : k < L / 2 + 1) :
    (phase b a L false).getD k 0 =
      atan2 (response b a L k).im (response b a L k).re / Real.pi ∧
    -1 < (phase b a L false).getD k 0 ∧ (phase b a L false).getD k 0 ≤ 1 := by
  have hpi := Real.pi_pos
  have hval : (phase b a L false).getD k 0 = phaseAt b a L k := by
    simp only [phase, Bool.false_eq_true, if_false, bins]
    exact getD_map_range (fun k => phaseAt b a L k) 0 (L / 2 + 1) k hk
  have hrange := atan2_mem_Ioc (response b a L k).im (response b a L k).re
  obtain ⟨hlo, hhi⟩ := hrange
  refine ⟨hval, ?_, ?_⟩
  · rw [hval]
    unfold phaseAt
    rw [lt_div_iff₀ hpi]
    linarith
  · rw [hval]
    unfold phaseAt
    rw [div_le_one hpi]
    exact hhi

/-- Witness for C3 at `b = [1]`, `a` absent, `L = 2`, bin `k = 0`. -/
theorem phase_wrapped_range_witness :
    (((some [1] : Option (List ℝ)) ≠ none ∨ (none : Option (List ℝ)) ≠ none) ∧
      2 ≤ 2 ∧ 0 < 2 / 2 + 1) ∧
    (phase (some [1]) none 2 false).getD 0 0 =
      atan2 (response (some [1]) none 2 0).im (response (some [1]) none 2 0).re /
        Real.pi ∧
    -1 < (phase (some [1]) none 2 false).getD 0 0 ∧
    (phase (some [1]) none 2 false).getD 0 0 ≤ 1 :=
  ⟨⟨Or.inl (by simp), by norm_num, by norm_num⟩,
    phase_wrapped_range (some [1]) none 2 0 (Or.inl (by simp)) (by norm_num)
      (by norm_num)⟩

/-! ### Phase unwrapping (C4) -/

lemma unwrapFrom_head_close (p : ℝ) (l : List ℝ) (hl : l ≠ []) :
    |(unwrapFrom p l).getD 0 0 - p| ≤ 1 := by
  cases l with
  | nil => exact absurd rfl hl
  | cons c rest =>
    simp only [unwrapFrom, List.getD_cons_zero]
    exact abs_unwrapNext_sub p c

lemma unwrapFrom_adjacent (l : List ℝ) : ∀ (p : ℝ) (i : ℕ), i + 1 < l.length →
    |(unwrapFrom p l).getD (i + 1) 0 - (unwrapFrom p l).getD i 0| ≤ 1 := by
  induction l with
  | nil => intro p i h; simp at h
  | cons c rest ih =>
    intro p i h
    cases i with
    | zero =>
      have hrest : rest ≠ [] := by
        intro he
        subst he
        simp at h
      simp only [unwrapFrom, List.getD_cons_succ, List.getD_cons_zero]
      exact unwrapFrom_head_close (unwrapNext p c) rest hrest
    | succ j =>
      simp only [unwrapFrom, List.getD_cons_succ]
      exact ih (unwrapNext p c) j (by simpa using h)

lemma unwrapList_adjacent (l : List ℝ) (i : ℕ) (h : i + 1 < l.length) :
    |(unwrapList l).getD (i + 1) 0 - (unwrapList l).getD i 0| ≤ 1 := by
  cases l with
  | nil => simp at h
  | cons c rest =>
    cases i with
    | zero =>
      have hrest : rest ≠ [] := by
        intro he
        subst he
        simp at h
      simp only [unwrapList, List.getD_cons_succ, List.getD_cons_zero]
      exact unwrapFrom_head_close c rest hrest
    | succ j =>
      simp only [unwrapList, List.getD_cons_succ]
      exact unwrapFrom_adjacent rest c j (by simpa using h)

lemma unwrapFrom_sub_int (l : List ℝ) : ∀ (p : ℝ) (i : ℕ), i < l.length →
    ∃ m : ℤ, (unwrapFrom p l).getD i 0 = l.getD i 0 - 2 * m := by
  induction l with
  | nil => intro p i h; simp at h
  | cons c rest ih =>
    intro p i h
    cases i with
    | zero =>
      exact ⟨round ((c - p) / 2), by simp [unwrapFrom, unwrapNext]⟩
    | succ j =>
      simp only [unwrapFrom, List.getD_cons_succ]
      exact ih (unwrapNext p c) j (by simpa using h)

lemma unwrapList_sub_int (l : List ℝ) (i : ℕ) (h : i < l.length) :
    ∃ m : ℤ, (unwrapList l).getD i 0 = l.getD i 0 - 2 * m := by
  cases l with
  | nil => simp at h
  | cons c rest =>
    cases i with
    | zero => exact ⟨0, by simp [unwrapList]⟩
    | succ j =>
      simp only [unwrapList, List.getD_cons_succ]
      exact unwrapFrom_sub_int rest c j (by simpa using h)

lemma unwrapList_head (l : List ℝ) : (unwrapList l).getD 0 0 = l.getD 0 0 := by
  cases l <;> simp [unwrapList]

/-- Claim C4: with `unwrap = true`, `phase` leaves the first sample as
computed, shifts every later sample by an integer multiple of `2.0`
(`2π` in normalized units), acts independently per batch element, and
the resulting adjacent frequency-bin values never differ by more than
`1.0` (π) in absolute value. -/
theorem phase_unwrap_properties (b a : Option (List ℝ)) (L : ℕ)
    (hba : b ≠ none ∨ a ≠ none) (hL : 2 ≤ L) :
    (phase b a L true).length = (phase b a L false).length ∧
    (phase b a L true).getD 0 0 = (phase b a L false).getD 0 0 ∧
    (∀ i, i < (phase b a L false).length →
      ∃ m : ℤ, (phase b a L true).getD i 0 = (phase b a L false).getD i 0 - 2 * m) ∧
    (∀ i, i + 1 < (phase b a L true).length →
      |(phase b a L true).getD (i + 1) 0 - (phase b a L true).getD i 0| ≤ 1) ∧
    (∀ pairs : List (Option (List ℝ) × Option (List ℝ)),
      phaseBatch pairs L true = pairs.map fun p => phase p.1 p.2 L true) := by
  have hw : phase b a L true = unwrapList (phase b a L false) := by
    simp [phase]
  refine ⟨?_, ?_, ?_, ?_, fun _ => rfl⟩
  · rw [hw, length_unwrapList]
  · rw [hw, unwrapList_head]
  · intro i hi
    rw [hw]
    exact unwrapList_sub_int (phase b a L false) i hi
  · intro i hi
    rw [hw] at hi ⊢
    rw [length_unwrapList] at hi
    exact unwrapList_adjacent (phase b a L false) i hi

/-- Witness for C4 at `b = [1, 2]`, `a` absent, `L = 4`. -/
theorem phase_unwrap_properties_witness :
    (((some [1, 2] : Option (List ℝ)) ≠ none ∨ (none : Option (List ℝ)) ≠ none) ∧
      2 ≤ 4) ∧
    (phase (some [1, 2]) none 4 true).length = (phase (some [1, 2]) none 4 false).length ∧
    (phase (some [1, 2]) none 4 true).getD 0 0 =
      (phase (some [1, 2]) none 4 false).getD 0 0 ∧
    (∀ i, i + 1 < (phase (some [1, 2]) none 4 true).length →
      |(phase (some [1, 2]) none 4 true).getD (i + 1) 0 -
        (phase (some [1, 2]) none 4 true).getD i 0| ≤ 1) := by
  have h := phase_unwrap_properties (some [1, 2]) none 4 (Or.inl (by simp))
    (by norm_num)
  exact ⟨⟨Or.inl (by simp), by norm_num⟩, h.1, h.2.1, h.2.2.2.1⟩

/-! ### Relative floor clamping (C6) -/

/-- Claim C6: with a negative `relative_floor`, every output value of
`spec`, after conversion to the chosen scale, is clamped to be no less
than the per-array maximum with `relative_floor` applied in that same
scale; in particular, in `db` format the outputs of one array never
spread by more than `-relative_floor` decibels. -/
theorem spec_relative_floor (b a : Option (List ℝ)) (L : ℕ) (eps r : ℝ)
    (fmt : OutFormat) (hba : b ≠ none ∨ a ≠ none) (hL : 2 ≤ L)
    (heps : 0 ≤ eps) (hr : r < 0) :
    (∀ v ∈ spec b a L eps (some r) fmt,
      floorAnchor fmt
        (listMax ((bins L).map fun k => convert fmt (powerAt b a L eps k))) r ≤ v) ∧
    (∀ u ∈ spec b a L eps (some r) OutFormat.db,
      ∀ v ∈ spec b a L eps (some r) OutFormat.db, u + r ≤ v) := by
  constructor
  · intro v hv
    have hrw : spec b a L eps (some r) fmt =
        ((bins L).map fun k => convert fmt (powerAt b a L eps k)).map
          (fun x => max x (floorAnchor fmt
            (listMax ((bins L).map fun k => convert fmt (powerAt b a L eps k))) r)) :=
      rfl
    rw [hrw] at hv
    obtain ⟨x, _, rfl⟩ := List.mem_map.mp hv
    exact le_max_right _ _
  · intro u hu v hv
    set vals := (bins L).map fun k => convert OutFormat.db (powerAt b a L eps k)
      with hvals
    have hrw : spec b a L eps (some r) OutFormat.db =
        vals.map (fun x => max x (floorAnchor OutFormat.db (listMax vals) r)) :=
      rfl
    rw [hrw] at hu hv
    obtain ⟨x, hx, rfl⟩ := List.mem_map.mp hu
    obtain ⟨y, _, rfl⟩ := List.mem_map.mp hv
    have hxle : x ≤ listMax vals := le_listMax hx
    have hanchor : floorAnchor OutFormat.db (listMax vals) r = listMax vals + r := rfl
    rw [hanchor]
    have h1 : max x (listMax vals + r) ≤ listMax vals :=
      max_le hxle (by linarith)
    have h2 : listMax vals + r ≤ max y (listMax vals + r) := le_max_right _ _
    linarith

/-- Witness for C6 at `b = [1]`, `a` absent, `L = 2`, `eps = 0`,
`relative_floor = -20`, `db` format. -/
theorem spec_relative_floor_witness :
    (((some [1] : Option (List ℝ)) ≠ none ∨ (none : Option (List ℝ)) ≠ none) ∧
      2 ≤ 2 ∧ (0 : ℝ) ≤ 0 ∧ (-20 : ℝ) < 0) ∧
    (∀ u ∈ spec (some [1]) none 2 0 (some (-20)) OutFormat.db,
      ∀ v ∈ spec (some [1]) none 2 0 (some (-20)) OutFormat.db, u + -20 ≤ v) :=
  ⟨⟨Or.inl (by simp), by norm_num, le_rfl, by norm_num⟩,
    (spec_relative_floor (some [1]) none 2 0 (-20) OutFormat.db (Or.inl (by simp))
      (by norm_num) le_rfl (by norm_num)).2⟩

/-! ### Configuration errors (C7) -/

lemma parseOutFormat_eq_none_iff (s : String) :
    parseOutFormat s = none ↔
      s ∉ (["power", "magnitude", "log-magnitude", "db"] : List String) := by
  unfold parseOutFormat
  split_ifs with h1 h2 h3 h4 <;> simp_all

lemma validateCommon_ne_none_iff (b a : Option (List ℝ)) (L : ℕ) :
    validateCommon b a L ≠ none ↔
      (b = none ∧ a = none) ∨ L < requiredLength b a := by
  cases b <;> cases a <;> simp [validateCommon] <;> split_ifs <;> simp_all

lemma specChecked_error_iff (b a : Option (List ℝ)) (L : ℕ) (eps : ℝ)
    (rf : Option ℝ) (fmtStr : String) :
    (∃ c, specChecked b a L eps rf fmtStr = Except.error c) ↔
      validateCommon b a L ≠ none ∨ parseOutFormat fmtStr = none := by
  unfold specChecked
  cases hv : validateCommon b a L with
  | some e => simp
  | none =>
    cases hp : parseOutFormat fmtStr with
    | some f => simp
    | none => simp

lemma phaseChecked_error_iff (b a : Option (List ℝ)) (L : ℕ) (unwrap : Bool) :
    (∃ c, phaseChecked b a L unwrap = Except.error c) ↔
      validateCommon b a L ≠ none := by
  unfold phaseChecked
  cases hv : validateCommon b a L with
  | some e => simp
  | none => simp

lemma grpdelayChecked_error_iff (b a : Option (List ℝ)) (L : ℕ) (alpha gamma : ℝ) :
    (∃ c, grpdelayChecked b a L alpha gamma = Except.error c) ↔
      validateCommon b a L ≠ none ∨ alpha ≤ 0 ∨ gamma ≤ 0 := by
  unfold grpdelayChecked
  cases hv : validateCommon b a L with
  | some e => simp
  | none =>
    by_cases ha : alpha ≤ 0
    · simp [ha]
    · by_cases hg : gamma ≤ 0 <;> simp [ha, hg]

/-- Claim C7: the checked operators fail with a `ConfigurationError`
exactly when both `b` and `a` are absent, or the output format string is
invalid (`spec` only), or `alpha ≤ 0` or `gamma ≤ 0` (`grpdelay` only),
or `L` is smaller than a tap count; no other condition raises, so
numerical edge cases never do. -/
theorem checked_error_conditions (b a : Option (List ℝ)) (L : ℕ) (eps : ℝ)
    (rf : Option ℝ) (fmtStr : String) (unwrap : Bool) (alpha gamma : ℝ) :
    ((∃ c, specChecked b a L eps rf fmtStr = Except.error c) ↔
      (b = none ∧ a = none) ∨
        fmtStr ∉ (["power", "magnitude", "log-magnitude", "db"] : List String) ∨
        L < requiredLength b a) ∧
    ((∃ c, phaseChecked b a L unwrap = Except.error c) ↔
      (b = none ∧ a = none) ∨ L < requiredLength b a) ∧
    ((∃ c, grpdelayChecked b a L alpha gamma = Except.error c) ↔
      (b = none ∧ a = none) ∨ alpha ≤ 0 ∨ gamma ≤ 0 ∨
        L < requiredLength b a) := by
  refine ⟨?_, ?_, ?_⟩
  · rw [specChecked_error_iff, validateCommon_ne_none_iff, parseOutFormat_eq_none_iff]
    tauto
  · rw [phaseChecked_error_iff, validateCommon_ne_none_iff]
  · rw [grpdelayChecked_error_iff, validateCommon_ne_none_iff]
    tauto

/-! ### End-to-end numeric example (C8) -/

lemma dftBin_pair_eight (c0 c1 : ℝ) (k : ℕ) :
    dftBin [c0, c1] 8 k =
      (c0 : ℂ) + (c1 : ℂ) * Complex.exp (-(2 * (Real.pi : ℂ) * k / 8) * Complex.I) := by
  unfold dftBin
  simp only [Finset.sum_range_succ, Finset.sum_range_zero]
  norm_num [List.getD]

lemma response_example (k : ℕ) :
    response (some [1, 1/2]) none 8 k =
      1 + (1/2 : ℂ) * Complex.exp (-(2 * (Real.pi : ℂ) * k / 8) * Complex.I) := by
  unfold response taps
  simp only [Option.getD_some, Option.getD_none]
  rw [dftBin_one_poly 8 k (by norm_num), div_one, dftBin_pair_eight]
  norm_num

/-- Claim C8: with `b = [1, 0.5]`, `a` absent, `L = 8`, `eps = 0` and
power format, the frequency response is
`H[k] = 1 + 0.5·e^(-j·2πk/8)` and the returned power spectrum satisfies
`P[0] = 2.25` and `P[4] = 0.25` exactly. -/
theorem spec_example_values :
    (∀ k, response (some [1, 1/2]) none 8 k =
      1 + (1/2 : ℂ) * Complex.exp (-(2 * (Real.pi : ℂ) * k / 8) * Complex.I)) ∧
    (spec (some [1, 1/2]) none 8 0 none OutFormat.power).getD 0 0 = 9/4 ∧
    (spec (some [1, 1/2]) none 8 0 none OutFormat.power).getD 4 0 = 1/4 := by
  have hget : ∀ k, k < 5 →
      (spec (some [1, 1/2]) none 8 0 none OutFormat.power).getD k 0 =
        Complex.abs (response (some [1, 1/2]) none 8 k) ^ 2 + 0 := by
    intro k hk
    show ((bins 8).map fun j =>
        convert OutFormat.power (powerAt (some [1, 1/2]) none 8 0 j)).getD k 0 = _
    unfold bins
    rw [getD_map_range _ 0 (8 / 2 + 1) k (by omega)]
    rfl
  refine ⟨response_example, ?_, ?_⟩
  · rw [hget 0 (by norm_num), response_example 0]
    have h0 : -(2 * (Real.pi : ℂ) * (0 : ℕ) / 8) * Complex.I = 0 := by
      push_cast; ring
    rw [h0, Complex.exp_zero, mul_one]
    rw [show (1 + (1/2 : ℂ)) = ((3/2 : ℝ) : ℂ) by norm_num]
    rw [Complex.abs_ofReal]
    norm_num
  · rw [hget 4 (by norm_num), response_example 4]
    have h4 : -(2 * (Real.pi : ℂ) * (4 : ℕ) / 8) * Complex.I =
        -((Real.pi : ℂ) * Complex.I) := by
      push_cast; ring
    rw [h4, Complex.exp_neg, Complex.exp_pi_mul_I]
    rw [show (1 + (1/2 : ℂ) * (-1 : ℂ)⁻¹) = ((1/2 : ℝ) : ℂ) by norm_num]
    rw [Complex.abs_ofReal]
    norm_num

end DiffSPTK

end
